import Mathlib

/-!
Shallow embedding of the sharded concurrent map from `ConcurrentMap.cpp`.

The C++ class `ConcurrentMap<Key, Value>` keeps a `std::vector<Bucket>`
(`buckets_`), each `Bucket` holding a `std::mutex` and a `std::map<Key, Value>`.
We model:

* `std::map<Key, Value>` as a strictly-sorted association list (`KVList`);
  sortedness is the well-formedness predicate `mapWF`, an invariant that
  `std::map` maintains internally.
* the bucket vector as a `List` of such association lists, with `bget`/`bset`
  modelling `operator[]` vector indexing (reads and in-place writes);
* `static_cast<uint64_t>(key)` as reduction of the (mathematical) integer key
  modulo 2^64 (`unsignedWiden`);
* each locked operation (the `Access` constructor body, `erase`, one loop
  iteration of `BuildOrdinaryMap`) as an atomic step: the per-bucket mutex
  serializes all operations that touch one bucket, so a concurrent execution
  is equivalent to an interleaving of these atomic steps, which we model as a
  list of operations (`Op`, `runOps`).

Key type: the template is restricted by `static_assert(std::is_integral_v<Key>)`
to integral keys; we use `Int` (mathematical integers, wrapped mod 2^64 exactly
where the C++ performs the `uint64_t` cast).
-/

namespace ConcurrentMapModel

/-- An association list modelling the contents of one `std::map<Key, Value>`
(keys strictly increasing; see `mapWF`). -/
abbrev KVList (V : Type) := List (Int × V)

/-- `std::map::find` / lookup: first entry with the given key. -/
def mapFind {V : Type} : KVList V → Int → Option V
  | [], _ => none
  | (k, v) :: rest, j => if j = k then some v else mapFind rest j

/-- `std::map::insert` of a single entry: inserts `(k, v)` at its sorted
position if `k` is absent, keeps the existing entry otherwise. -/
def mapInsertIfAbsent {V : Type} (k : Int) (v : V) : KVList V → KVList V
  | [] => [(k, v)]
  | (k', v') :: rest =>
    if k < k' then (k, v) :: (k', v') :: rest
    else if k = k' then (k', v') :: rest
    else (k', v') :: mapInsertIfAbsent k v rest

/-- Writing through `mapped_type&` obtained from `std::map::operator[]` (or the
net effect of `m[k] = v`): the entry for `k` ends up bound to `v`. -/
def mapSet {V : Type} (k : Int) (v : V) : KVList V → KVList V
  | [] => [(k, v)]
  | (k', v') :: rest =>
    if k < k' then (k, v) :: (k', v') :: rest
    else if k = k' then (k, v) :: rest
    else (k', v') :: mapSet k v rest

/-- `std::map::erase(key)`: removes the entry for `k` if present. -/
def mapErase {V : Type} (k : Int) : KVList V → KVList V
  | [] => []
  | (k', v') :: rest => if k = k' then rest else (k', v') :: mapErase k rest

/-- `result.insert(map.begin(), map.end())` in `BuildOrdinaryMap`: range insert
into `dst`, keeping existing entries of `dst` on key collision. -/
def mapInsertRange {V : Type} (dst src : KVList V) : KVList V :=
  src.foldl (fun d kv => mapInsertIfAbsent kv.1 kv.2 d) dst

/-- The bucket vector `std::vector<Bucket>` (each bucket reduced to its map;
the mutex has no data content in the atomic-step model). -/
abbrev Buckets (V : Type) := List (KVList V)

/-- Vector read `buckets_[i]` (out-of-range reads never occur on the C++ side;
the default `[]` is unreachable under the in-bounds conditions we prove). -/
def bget {V : Type} : Buckets V → Nat → KVList V
  | [], _ => []
  | b :: _, 0 => b
  | _ :: rest, i + 1 => bget rest i

/-- In-place update of `buckets_[i]` (mutation of the bucket's map under its
lock). -/
def bset {V : Type} : Buckets V → Nat → KVList V → Buckets V
  | [], _, _ => []
  | _ :: rest, 0, b' => b' :: rest
  | b :: rest, i + 1, b' => b :: bset rest i b'

/-- The state of a `ConcurrentMap<Key, Value>` object. -/
structure ConcurrentMap (V : Type) where
  buckets_ : Buckets V
deriving DecidableEq

/-- `static_cast<uint64_t>(key)`: the key's value wrapped into `[0, 2^64)`. -/
def unsignedWiden (k : Int) : Nat := (k % (2 : Int) ^ 64).toNat

/-- `explicit ConcurrentMap(size_t bucket_count) : buckets_(bucket_count)`:
constructs `bucket_count` empty buckets (no validity check on the count). -/
def mkConcurrentMap (V : Type) (bucket_count : Nat) : ConcurrentMap V :=
  ⟨List.replicate bucket_count []⟩

/-- The index computed by `GetBucket`:
`static_cast<uint64_t>(key) % buckets_.size()`. -/
def getBucketIdx {V : Type} (cm : ConcurrentMap V) (key : Int) : Nat :=
  unsignedWiden key % cm.buckets_.length

/-- The `Access` constructor: lock the key's bucket, default-insert the key via
`bucket.map[key]`, expose the value the reference `ref_to_value` denotes.
Returns (new state, referenced value). -/
def cmAccess {V : Type} [Inhabited V] (cm : ConcurrentMap V) (key : Int) :
    ConcurrentMap V × V :=
  let i := getBucketIdx cm key
  let b := mapInsertIfAbsent key default (bget cm.buckets_ i)
  (⟨bset cm.buckets_ i b⟩, (mapFind b key).getD default)

/-- A write through `ref_to_value` while the `Access` handle is alive: stores
`v` into the key's slot in the key's bucket. -/
def cmWrite {V : Type} (cm : ConcurrentMap V) (key : Int) (v : V) :
    ConcurrentMap V :=
  let i := getBucketIdx cm key
  ⟨bset cm.buckets_ i (mapSet key v (bget cm.buckets_ i))⟩

/-- `void erase(const Key& key)`: lock the key's bucket, `bucket.map.erase(key)`. -/
def cmErase {V : Type} (cm : ConcurrentMap V) (key : Int) : ConcurrentMap V :=
  let i := getBucketIdx cm key
  ⟨bset cm.buckets_ i (mapErase key (bget cm.buckets_ i))⟩

/-- `std::map<Key, Value> BuildOrdinaryMap()`: iterate the buckets in index
order; under each bucket's lock, range-insert its entries into the result.
The state is threaded through the loop to expose the frame effect: the loop
body reads the bucket but writes only the local `result`. -/
def buildOrdinaryMapRun {V : Type} (cm : ConcurrentMap V) :
    ConcurrentMap V × KVList V :=
  cm.buckets_.foldl (fun st b => (st.1, mapInsertRange st.2 b)) (cm, [])

/-- The value returned by `BuildOrdinaryMap`. -/
def buildOrdinaryMap {V : Type} (cm : ConcurrentMap V) : KVList V :=
  (buildOrdinaryMapRun cm).2

/-- `++cm[key].ref_to_value` on a `ConcurrentMap<int, int>` (one atomic step:
the increment happens under the `Access` handle's lock; `int` is modelled as
`Int`, sound here because the tests never approach `INT_MAX`). -/
def cmIncr (cm : ConcurrentMap Int) (key : Int) : ConcurrentMap Int :=
  let a := cmAccess cm key
  cmWrite a.1 key (a.2 + 1)

/-- One atomic client operation on the map. Each constructor corresponds to a
block of C++ executed while holding one bucket's lock, so any concurrent
history is an interleaving of these. -/
inductive Op (V : Type) where
  | access (key : Int)
  | assign (key : Int) (v : V)
  | erase (key : Int)
  | snapshot
deriving DecidableEq

/-- Execute one operation. `assign key v` is `cm[key].ref_to_value = v;`
(an `Access`, then a store through the handle's reference). `snapshot`
runs `BuildOrdinaryMap` and discards the result (its effect on the state). -/
def runOp {V : Type} [Inhabited V] (cm : ConcurrentMap V) : Op V → ConcurrentMap V
  | .access key => (cmAccess cm key).1
  | .assign key v => cmWrite (cmAccess cm key).1 key v
  | .erase key => cmErase cm key
  | .snapshot => (buildOrdinaryMapRun cm).1

/-- Execute a serialized history of operations, left to right. -/
def runOps {V : Type} [Inhabited V] (cm : ConcurrentMap V) (ops : List (Op V)) :
    ConcurrentMap V :=
  ops.foldl runOp cm

/-- Execute a serialized history of `++cm[key].ref_to_value` increments
(`RunConcurrentUpdates` kernel steps), left to right. -/
def runIncrs (cm : ConcurrentMap Int) (ks : List Int) : ConcurrentMap Int :=
  ks.foldl cmIncr cm

/-- Lookup of a key in the map's state: what `GetBucket(key).map` binds to
`key`. -/
def cmFind {V : Type} (cm : ConcurrentMap V) (key : Int) : Option V :=
  mapFind (bget cm.buckets_ (getBucketIdx cm key)) key

/-- Specification-side transition of the value bound to a fixed key `k` under
one operation: `access` default-inserts, `assign` overwrites, `erase` removes,
`snapshot` changes nothing. -/
def stepSpec {V : Type} [Inhabited V] (k : Int) (acc : Option V) : Op V → Option V
  | .access key => if key = k then some (acc.getD default) else acc
  | .assign key v => if key = k then some v else acc
  | .erase key => if key = k then none else acc
  | .snapshot => acc

/-- Specification-side value bound to `k` after a history: the last value
written to `k` (default if `k` was only default-inserted), `none` once erased
and not re-inserted. -/
def lastState {V : Type} [Inhabited V] (ops : List (Op V)) (k : Int) : Option V :=
  ops.foldl (stepSpec k) none

/-- `std::map` representation invariant: keys strictly increasing. -/
abbrev mapWF {V : Type} (m : KVList V) : Prop :=
  m.Pairwise (fun a b => a.1 < b.1)

/-- Every bucket's map is well-formed. -/
abbrev cmWF {V : Type} (cm : ConcurrentMap V) : Prop :=
  ∀ b ∈ cm.buckets_, mapWF b

/-- Partition invariant: bucket `i` contains only keys whose bucket index is
`i`. -/
abbrev cmPart {V : Type} (cm : ConcurrentMap V) : Prop :=
  ∀ i, i < cm.buckets_.length → ∀ kv ∈ bget cm.buckets_ i, getBucketIdx cm kv.1 = i

/-- Full state invariant: a positive bucket count, well-formed buckets, and
the partition invariant. -/
abbrev cmInv {V : Type} (cm : ConcurrentMap V) : Prop :=
  0 < cm.buckets_.length ∧ cmWF cm ∧ cmPart cm

/-- First bucket in the list that binds `j`, and its value — the key's binding
as seen by a front-to-back scan (used to analyse `BuildOrdinaryMap`). -/
def findFirst {V : Type} : Buckets V → Int → Option V
  | [], _ => none
  | b :: rest, j =>
    match mapFind b j with
    | some v => some v
    | none => findFirst rest j

/-! ### Lemmas about the association-list model of `std::map` -/

theorem mapFind_eq_none {V : Type} {j : Int} :
    ∀ {m : KVList V}, (∀ kv ∈ m, j ≠ kv.1) → mapFind m j = none := by
  intro m
  induction m with
  | nil => intro _; rfl
  | cons hd rest ih =>
    obtain ⟨k, v⟩ := hd
    intro h
    simp only [mapFind]
    rw [if_neg (h (k, v) (List.mem_cons_self _ _))]
    exact ih fun kv hm => h kv (List.mem_cons_of_mem _ hm)

theorem mem_of_mapFind_eq_some {V : Type} {j : Int} {v : V} :
    ∀ {m : KVList V}, mapFind m j = some v → (j, v) ∈ m := by
  intro m
  induction m with
  | nil => intro h; exact absurd h (by simp [mapFind])
  | cons hd rest ih =>
    obtain ⟨k, w⟩ := hd
    intro h
    simp only [mapFind] at h
    by_cases hj : j = k
    · rw [if_pos hj] at h
      subst hj
      obtain rfl : w = v := Option.some.inj h
      exact List.mem_cons_self _ _
    · rw [if_neg hj] at h
      exact List.mem_cons_of_mem _ (ih h)

theorem mem_mapInsertIfAbsent {V : Type} {k : Int} {v : V} :
    ∀ {m : KVList V} {kv : Int × V},
      kv ∈ mapInsertIfAbsent k v m → kv = (k, v) ∨ kv ∈ m := by
  intro m
  induction m with
  | nil =>
    intro kv h
    simp only [mapInsertIfAbsent, List.mem_singleton] at h
    exact Or.inl h
  | cons hd rest ih =>
    obtain ⟨k', v'⟩ := hd
    intro kv h
    simp only [mapInsertIfAbsent] at h
    split at h
    · rcases List.mem_cons.mp h with h | h
      · exact Or.inl h
      · exact Or.inr h
    · split at h
      · exact Or.inr h
      · rcases List.mem_cons.mp h with h | h
        · exact Or.inr (List.mem_cons.mpr (Or.inl h))
        · rcases ih h with h | h
          · exact Or.inl h
          · exact Or.inr (List.mem_cons.mpr (Or.inr h))

theorem mem_mapSet {V : Type} {k : Int} {v : V} :
    ∀ {m : KVList V} {kv : Int × V}, kv ∈ mapSet k v m → kv = (k, v) ∨ kv ∈ m := by
  intro m
  induction m with
  | nil =>
    intro kv h
    simp only [mapSet, List.mem_singleton] at h
    exact Or.inl h
  | cons hd rest ih =>
    obtain ⟨k', v'⟩ := hd
    intro kv h
    simp only [mapSet] at h
    split at h
    · rcases List.mem_cons.mp h with h | h
      · exact Or.inl h
      · exact Or.inr h
    · split at h
      · rcases List.mem_cons.mp h with h | h
        · exact Or.inl h
        · exact Or.inr (List.mem_cons.mpr (Or.inr h))
      · rcases List.mem_cons.mp h with h | h
        · exact Or.inr (List.mem_cons.mpr (Or.inl h))
        · rcases ih h with h | h
          · exact Or.inl h
          · exact Or.inr (List.mem_cons.mpr (Or.inr h))

theorem mapErase_sublist {V : Type} (k : Int) :
    ∀ (m : KVList V), List.Sublist (mapErase k m) m := by
  intro m
  induction m with
  | nil => exact List.Sublist.refl _
  | cons hd rest ih =>
    obtain ⟨k', v'⟩ := hd
    simp only [mapErase]
    split
    · exact List.sublist_cons_self _ _
    · exact List.Sublist.cons₂ _ ih

theorem mapWF_insertIfAbsent {V : Type} {k : Int} {v : V} :
    ∀ {m : KVList V}, mapWF m → mapWF (mapInsertIfAbsent k v m) := by
  intro m
  induction m with
  | nil => intro _; simp [mapInsertIfAbsent, mapWF]
  | cons hd rest ih =>
    obtain ⟨k', v'⟩ := hd
    intro hwf
    obtain ⟨hlt, hrest⟩ := List.pairwise_cons.mp hwf
    simp only [mapInsertIfAbsent]
    split
    · rename_i hk
      refine List.pairwise_cons.mpr ⟨?_, List.pairwise_cons.mpr ⟨hlt, hrest⟩⟩
      intro x hx
      rcases List.mem_cons.mp hx with rfl | hx
      · exact hk
      · exact lt_trans hk (hlt x hx)
    · split
      · exact List.pairwise_cons.mpr ⟨hlt, hrest⟩
      · rename_i hk1 hk2
        refine List.pairwise_cons.mpr ⟨?_, ih hrest⟩
        intro x hx
        rcases mem_mapInsertIfAbsent hx with rfl | hx
        · simp only
          omega
        · exact hlt x hx

theorem mapWF_mapSet {V : Type} {k : Int} {v : V} :
    ∀ {m : KVList V}, mapWF m → mapWF (mapSet k v m) := by
  intro m
  induction m with
  | nil => intro _; simp [mapSet, mapWF]
  | cons hd rest ih =>
    obtain ⟨k', v'⟩ := hd
    intro hwf
    obtain ⟨hlt, hrest⟩ := List.pairwise_cons.mp hwf
    simp only [mapSet]
    split
    · rename_i hk
      refine List.pairwise_cons.mpr ⟨?_, List.pairwise_cons.mpr ⟨hlt, hrest⟩⟩
      intro x hx
      rcases List.mem_cons.mp hx with rfl | hx
      · exact hk
      · exact lt_trans hk (hlt x hx)
    · split
      · rename_i hk1 hk2
        refine List.pairwise_cons.mpr ⟨?_, hrest⟩
        intro x hx
        have := hlt x hx
        simp only at this ⊢
        omega
      · rename_i hk1 hk2
        refine List.pairwise_cons.mpr ⟨?_, ih hrest⟩
        intro x hx
        rcases mem_mapSet hx with rfl | hx
        · simp only
          omega
        · exact hlt x hx

theorem mapWF_mapErase {V : Type} {k : Int} {m : KVList V} (h : mapWF m) :
    mapWF (mapErase k m) :=
  List.Pairwise.sublist (mapErase_sublist k m) h

theorem mapFind_mapSet {V : Type} (k : Int) (v : V) :
    ∀ (m : KVList V) (j : Int),
      mapFind (mapSet k v m) j = if j = k then some v else mapFind m j := by
  intro m
  induction m with
  | nil => intro j; simp [mapSet, mapFind]
  | cons hd rest ih =>
    obtain ⟨k', v'⟩ := hd
    intro j
    simp only [mapSet]
    split
    · simp only [mapFind]
    · split
      · rename_i hk1 hk2
        subst hk2
        by_cases hj : j = k <;> simp [mapFind, hj]
      · rename_i hk1 hk2
        by_cases hj : j = k'
        · subst hj
          have : ¬ j = k := fun h => hk2 h.symm
          simp [mapFind, this]
        · simp only [mapFind, if_neg hj]
          exact ih j

theorem mapFind_insertIfAbsent {V : Type} {k : Int} {v : V} :
    ∀ {m : KVList V}, mapWF m → ∀ (j : Int),
      mapFind (mapInsertIfAbsent k v m) j =
        if j = k then some ((mapFind m k).getD v) else mapFind m j := by
  intro m
  induction m with
  | nil => intro _ j; simp [mapInsertIfAbsent, mapFind]
  | cons hd rest ih =>
    obtain ⟨k', v'⟩ := hd
    intro hwf j
    obtain ⟨hlt, hrest⟩ := List.pairwise_cons.mp hwf
    simp only [mapInsertIfAbsent]
    split
    · rename_i hk
      have hnone : mapFind ((k', v') :: rest) k = none := by
        apply mapFind_eq_none
        intro kv hkv
        rcases List.mem_cons.mp hkv with rfl | hkv
        · exact fun h => absurd (h ▸ hk) (lt_irrefl _)
        · have := hlt kv hkv
          intro h
          omega
      rw [hnone]
      by_cases hj : j = k <;> simp [mapFind, hj]
    · split
      · rename_i hk1 hk2
        subst hk2
        by_cases hj : j = k <;> simp [mapFind, hj]
      · rename_i hk1 hk2
        have hk' : ¬ k = k' := hk2
        simp only [mapFind]
        by_cases hj : j = k'
        · subst hj
          have hne : ¬ j = k := fun h => hk' h.symm
          simp [hne, fun h => hk' (Eq.symm h)]
        · rw [if_neg hj, if_neg hj, ih hrest j]
          rw [if_neg (fun h : k = k' => hk' h)]

theorem mapFind_mapErase {V : Type} {k : Int} :
    ∀ {m : KVList V}, mapWF m → ∀ (j : Int),
      mapFind (mapErase k m) j = if j = k then none else mapFind m j := by
  intro m
  induction m with
  | nil => intro _ j; simp [mapErase, mapFind]
  | cons hd rest ih =>
    obtain ⟨k', v'⟩ := hd
    intro hwf j
    obtain ⟨hlt, hrest⟩ := List.pairwise_cons.mp hwf
    simp only [mapErase]
    split
    · rename_i hk
      subst hk
      by_cases hj : j = k

      · subst hj
        rw [if_pos rfl]
        apply mapFind_eq_none
        intro kv hkv
        have := hlt kv hkv
        intro h
        omega
      · simp [mapFind, hj]
    · rename_i hk
      simp only [mapFind]
      by_cases hj : j = k'
      · subst hj
        have : ¬ j = k := fun h => hk (h.symm)
        simp [this]
      · rw [if_neg hj, ih hrest j, if_neg hj]

theorem mapErase_of_absent {V : Type} {k : Int} :
    ∀ {m : KVList V}, mapFind m k = none → mapErase k m = m := by
  intro m
  induction m with
  | nil => intro _; rfl
  | cons hd rest ih =>
    obtain ⟨k', v'⟩ := hd
    intro h
    simp only [mapFind] at h
    by_cases hk : k = k'
    · rw [if_pos hk] at h
      exact absurd h (by simp)
    · rw [if_neg hk] at h
      simp only [mapErase, if_neg hk]
      rw [ih h]

theorem mapInsertIfAbsent_of_present {V : Type} {k : Int} {v w : V} :
    ∀ {m : KVList V}, mapWF m → mapFind m k = some w →
      mapInsertIfAbsent k v m = m := by
  intro m
  induction m with
  | nil => intro _ h; exact absurd h (by simp [mapFind])
  | cons hd rest ih =>
    obtain ⟨k', v'⟩ := hd
    intro hwf h
    obtain ⟨hlt, hrest⟩ := List.pairwise_cons.mp hwf
    simp only [mapFind] at h
    by_cases hk : k = k'
    · simp only [mapInsertIfAbsent, if_neg (by omega : ¬ k < k'), if_pos hk]
    · rw [if_neg hk] at h
      have hmem := mem_of_mapFind_eq_some h
      have hgt : k' < k := hlt _ hmem
      simp only [mapInsertIfAbsent, if_neg (by omega : ¬ k < k'), if_neg hk]
      rw [ih hrest h]

theorem mapWF_insertRange {V : Type} :
    ∀ (src : KVList V) (dst : KVList V), mapWF dst → mapWF (mapInsertRange dst src) := by
  intro src
  induction src with
  | nil => intro dst h; exact h
  | cons kv rest ih =>
    intro dst h
    rw [mapInsertRange, List.foldl_cons]
    exact ih _ (mapWF_insertIfAbsent h)

theorem mapFind_insertRange {V : Type} {j : Int} :
    ∀ (src : KVList V) (dst : KVList V), mapWF dst → mapWF src →
      mapFind (mapInsertRange dst src) j =
        match mapFind dst j with
        | some w => some w
        | none => mapFind src j := by
  intro src
  induction src with
  | nil =>
    intro dst _ _
    simp only [mapInsertRange, List.foldl_nil]
    cases mapFind dst j <;> simp [mapFind]
  | cons kv rest ih =>
    intro dst hdst hsrc
    obtain ⟨k, v⟩ := kv
    obtain ⟨hlt, hrest⟩ := List.pairwise_cons.mp hsrc
    rw [mapInsertRange, List.foldl_cons]
    rw [show (rest.foldl (fun d kv => mapInsertIfAbsent kv.1 kv.2 d)
          (mapInsertIfAbsent k v dst)) =
        mapInsertRange (mapInsertIfAbsent k v dst) rest from rfl]
    rw [ih _ (mapWF_insertIfAbsent hdst) hrest]
    rw [mapFind_insertIfAbsent hdst j]
    by_cases hj : j = k
    · subst hj
      rw [if_pos rfl]
      cases hd : mapFind dst j <;> simp [mapFind]
    · rw [if_neg hj]
      cases hd : mapFind dst j <;> simp [mapFind, hj]

/-! ### Lemmas about the bucket vector -/

theorem length_bset {V : Type} :
    ∀ (bs : Buckets V) (i : Nat) (b' : KVList V),
      (bset bs i b').length = bs.length := by
  intro bs
  induction bs with
  | nil => intro i b'; rfl
  | cons b rest ih =>
    intro i b'
    cases i with
    | zero => rfl
    | succ i1 => simp [bset, ih]

theorem bget_bset_self {V : Type} :
    ∀ (bs : Buckets V) (i : Nat) (b' : KVList V), i < bs.length →
      bget (bset bs i b') i = b' := by
  intro bs
  induction bs with
  | nil => intro i b' h; exact absurd h (by simp)
  | cons b rest ih =>
    intro i b' h
    cases i with
    | zero => rfl
    | succ i1 =>
      simp only [bset, bget]
      exact ih i1 b' (by simpa using h)

theorem bget_bset_ne {V : Type} :
    ∀ (bs : Buckets V) (i j : Nat) (b' : KVList V), i ≠ j →
      bget (bset bs i b') j = bget bs j := by
  intro bs
  induction bs with
  | nil => intro i j b' _; cases j <;> rfl
  | cons b rest ih =>
    intro i j b' hne
    cases i with
    | zero =>
      cases j with
      | zero => exact absurd rfl hne
      | succ j1 => rfl
    | succ i1 =>
      cases j with
      | zero => rfl
      | succ j1 =>
        simp only [bset, bget]
        exact ih i1 j1 b' (by omega)

theorem bset_bget_self {V : Type} :
    ∀ (bs : Buckets V) (i : Nat), bset bs i (bget bs i) = bs := by
  intro bs
  induction bs with
  | nil => intro i; rfl
  | cons b rest ih =>
    intro i
    cases i with
    | zero => rfl
    | succ i1 => simp [bset, bget, ih]

theorem bget_mem {V : Type} :
    ∀ (bs : Buckets V) (i : Nat), i < bs.length → bget bs i ∈ bs := by
  intro bs
  induction bs with
  | nil => intro i h; exact absurd h (by simp)
  | cons b rest ih =>
    intro i h
    cases i with
    | zero => exact List.mem_cons_self _ _
    | succ i1 =>
      exact List.mem_cons_of_mem _ (ih i1 (by simpa using h))

theorem mem_bset {V : Type} :
    ∀ (bs : Buckets V) (i : Nat) (b' b : KVList V),
      b ∈ bset bs i b' → b ∈ bs ∨ b = b' := by
  intro bs
  induction bs with
  | nil => intro i b' b h; exact absurd h (by simp [bset])
  | cons hd rest ih =>
    intro i b' b h
    cases i with
    | zero =>
      rcases List.mem_cons.mp h with rfl | h
      · exact Or.inr rfl
      · exact Or.inl (List.mem_cons_of_mem _ h)
    | succ i1 =>
      rcases List.mem_cons.mp h with rfl | h
      · exact Or.inl (List.mem_cons_self _ _)
      · rcases ih i1 b' b h with h | h
        · exact Or.inl (List.mem_cons_of_mem _ h)
        · exact Or.inr h

theorem bget_replicate {V : Type} :
    ∀ (n i : Nat), bget (List.replicate n ([] : KVList V)) i = [] := by
  intro n
  induction n with
  | zero => intro i; cases i <;> rfl
  | succ n1 ih =>
    intro i
    cases i with
    | zero => rfl
    | succ i1 => simpa [List.replicate, bget] using ih i1

/-! ### Lemmas about the snapshot fold -/

theorem findFirst_eq_none {V : Type} {j : Int} :
    ∀ {bs : Buckets V}, (∀ b ∈ bs, mapFind b j = none) → findFirst bs j = none := by
  intro bs
  induction bs with
  | nil => intro _; rfl
  | cons b rest ih =>
    intro h
    simp only [findFirst, h b (List.mem_cons_self _ _)]
    exact ih fun b' hb' => h b' (List.mem_cons_of_mem _ hb')

theorem bget_of_mem {V : Type} :
    ∀ {bs : Buckets V} {b : KVList V}, b ∈ bs →
      ∃ i, i < bs.length ∧ bget bs i = b := by
  intro bs
  induction bs with
  | nil => intro b h; exact absurd h (by simp)
  | cons hd rest ih =>
    intro b h
    rcases List.mem_cons.mp h with rfl | h
    · exact ⟨0, by simp, rfl⟩
    · obtain ⟨i, hi, hb⟩ := ih h
      exact ⟨i + 1, by simpa using hi, hb⟩

theorem findFirst_eq_bget {V : Type} {j : Int} :
    ∀ {bs : Buckets V} {i0 : Nat}, i0 < bs.length →
      (∀ i, i < bs.length → i ≠ i0 → mapFind (bget bs i) j = none) →
      findFirst bs j = mapFind (bget bs i0) j := by
  intro bs
  induction bs with
  | nil => intro i0 h _; exact absurd h (by simp)
  | cons b rest ih =>
    intro i0 hi0 h
    cases i0 with
    | zero =>
      show findFirst (b :: rest) j = mapFind b j
      simp only [findFirst]
      cases hb : mapFind b j with
      | some v => rfl
      | none =>
        apply findFirst_eq_none
        intro b' hb'
        obtain ⟨i, hi, rfl⟩ := bget_of_mem hb'
        have := h (i + 1) (by simpa using hi) (by omega)
        simpa [bget] using this
    | succ i1 =>
      have hb : mapFind b j = none := by
        have := h 0 (by simp) (by omega)
        simpa [bget] using this
      simp only [findFirst, hb]
      exact ih (by simpa using hi0) fun i hi hne =>
        by simpa [bget] using h (i + 1) (by simpa using hi) (by omega)

theorem foldl_insertRange_WF {V : Type} :
    ∀ (bs : Buckets V) (acc : KVList V), mapWF acc →
      mapWF (bs.foldl mapInsertRange acc) := by
  intro bs
  induction bs with
  | nil => intro acc h; exact h
  | cons b rest ih =>
    intro acc h
    rw [List.foldl_cons]
    exact ih _ (mapWF_insertRange b acc h)

theorem foldl_insertRange_find {V : Type} {j : Int} :
    ∀ (bs : Buckets V) (acc : KVList V), (∀ b ∈ bs, mapWF b) → mapWF acc →
      mapFind (bs.foldl mapInsertRange acc) j =
        match mapFind acc j with
        | some w => some w
        | none => findFirst bs j := by
  intro bs
  induction bs with
  | nil =>
    intro acc _ _
    simp only [List.foldl_nil, findFirst]
    cases mapFind acc j <;> simp
  | cons b rest ih =>
    intro acc hbs hacc
    rw [List.foldl_cons]
    rw [ih (mapInsertRange acc b)
      (fun x hx => hbs x (List.mem_cons_of_mem _ hx))
      (mapWF_insertRange b acc hacc)]
    rw [mapFind_insertRange b acc hacc (hbs b (List.mem_cons_self _ _))]
    simp only [findFirst]
    cases mapFind acc j <;> cases mapFind b j <;> simp

theorem foldl_pairThread {α β γ : Type} (f : γ → α → γ) :
    ∀ (l : List α) (c : β) (a : γ),
      l.foldl (fun st b => (st.1, f st.2 b)) (c, a) = (c, l.foldl f a) := by
  intro l
  induction l with
  | nil => intro c a; rfl
  | cons x rest ih =>
    intro c a
    rw [List.foldl_cons, List.foldl_cons]
    exact ih c (f a x)

theorem buildRun_fst {V : Type} (cm : ConcurrentMap V) :
    (buildOrdinaryMapRun cm).1 = cm := by
  rw [buildOrdinaryMapRun, foldl_pairThread]

theorem buildMap_eq_foldl {V : Type} (cm : ConcurrentMap V) :
    buildOrdinaryMap cm = cm.buckets_.foldl mapInsertRange [] := by
  rw [buildOrdinaryMap, buildOrdinaryMapRun, foldl_pairThread]

/-! ### State-level lemmas -/

theorem cmFind_mk {V : Type} (n : Nat) (k : Int) :
    cmFind (mkConcurrentMap V n) k = none := by
  rw [cmFind]
  rw [show (mkConcurrentMap V n).buckets_ = List.replicate n [] from rfl]
  rw [bget_replicate]
  rfl

theorem cmAccess_fst_length {V : Type} [Inhabited V] (cm : ConcurrentMap V)
    (key : Int) : ((cmAccess cm key).1).buckets_.length = cm.buckets_.length := by
  simp [cmAccess, length_bset]

theorem cmWrite_length {V : Type} (cm : ConcurrentMap V) (key : Int) (v : V) :
    (cmWrite cm key v).buckets_.length = cm.buckets_.length := by
  simp [cmWrite, length_bset]

theorem cmErase_length {V : Type} (cm : ConcurrentMap V) (key : Int) :
    (cmErase cm key).buckets_.length = cm.buckets_.length := by
  simp [cmErase, length_bset]

theorem runOp_length {V : Type} [Inhabited V] (cm : ConcurrentMap V) (op : Op V) :
    (runOp cm op).buckets_.length = cm.buckets_.length := by
  cases op with
  | access key => exact cmAccess_fst_length cm key
  | assign key v =>
    rw [runOp, cmWrite_length, cmAccess_fst_length]
  | erase key => exact cmErase_length cm key
  | snapshot => rw [runOp, buildRun_fst]

theorem runOps_length {V : Type} [Inhabited V] :
    ∀ (ops : List (Op V)) (cm : ConcurrentMap V),
      (runOps cm ops).buckets_.length = cm.buckets_.length := by
  intro ops
  induction ops with
  | nil => intro cm; rfl
  | cons op rest ih =>
    intro cm
    rw [runOps, List.foldl_cons]
    rw [show rest.foldl runOp (runOp cm op) = runOps (runOp cm op) rest from rfl]
    rw [ih, runOp_length]

theorem getBucketIdx_congr {V : Type} {cm cm' : ConcurrentMap V}
    (h : cm'.buckets_.length = cm.buckets_.length) (k : Int) :
    getBucketIdx cm' k = getBucketIdx cm k := by
  rw [getBucketIdx, getBucketIdx, h]

theorem cmInv_mk {V : Type} {n : Nat} (hn : 0 < n) :
    cmInv (mkConcurrentMap V n) := by
  refine ⟨by simpa [mkConcurrentMap] using hn, ?_, ?_⟩
  · intro b hb
    rw [List.eq_of_mem_replicate hb]
    exact List.Pairwise.nil
  · intro i _ kv hkv
    rw [show (mkConcurrentMap V n).buckets_ = List.replicate n [] from rfl,
      bget_replicate] at hkv
    exact absurd hkv (by simp)

theorem bget_eq_nil_of_le {V : Type} :
    ∀ (bs : Buckets V) (i : Nat), bs.length ≤ i → bget bs i = [] := by
  intro bs
  induction bs with
  | nil => intro i _; cases i <;> rfl
  | cons b rest ih =>
    intro i h
    cases i with
    | zero => exact absurd h (by simp)
    | succ i1 => exact ih i1 (by simpa using h)

theorem cmWF_bget {V : Type} {cm : ConcurrentMap V} (h : cmWF cm) (i : Nat) :
    mapWF (bget cm.buckets_ i) := by
  by_cases hi : i < cm.buckets_.length
  · exact h _ (bget_mem _ _ hi)
  · rw [bget_eq_nil_of_le _ _ (by omega)]
    exact List.Pairwise.nil

theorem getBucketIdx_lt {V : Type} {cm : ConcurrentMap V}
    (h : 0 < cm.buckets_.length) (k : Int) :
    getBucketIdx cm k < cm.buckets_.length :=
  Nat.mod_lt _ h

theorem cmInv_cmAccess {V : Type} [Inhabited V] {cm : ConcurrentMap V}
    (h : cmInv cm) (key : Int) : cmInv (cmAccess cm key).1 := by
  obtain ⟨hlen, hwf, hpart⟩ := h
  have hi : getBucketIdx cm key < cm.buckets_.length := getBucketIdx_lt hlen key
  have hlen' : ((cmAccess cm key).1).buckets_.length = cm.buckets_.length :=
    cmAccess_fst_length cm key
  refine ⟨by rw [hlen']; exact hlen, ?_, ?_⟩
  · intro b hb
    rcases mem_bset _ _ _ _ hb with hb | rfl
    · exact hwf b hb
    · exact mapWF_insertIfAbsent (cmWF_bget hwf _)
  · intro i' hi' kv hkv
    rw [hlen'] at hi'
    rw [getBucketIdx_congr hlen']
    by_cases hii : i' = getBucketIdx cm key
    · subst hii
      rw [show ((cmAccess cm key).1).buckets_ =
          bset cm.buckets_ (getBucketIdx cm key)
            (mapInsertIfAbsent key default
              (bget cm.buckets_ (getBucketIdx cm key))) from rfl,
        bget_bset_self _ _ _ hi] at hkv
      rcases mem_mapInsertIfAbsent hkv with rfl | hkv
      · rfl
      · exact hpart _ hi kv hkv
    · rw [show ((cmAccess cm key).1).buckets_ =
          bset cm.buckets_ (getBucketIdx cm key)
            (mapInsertIfAbsent key default
              (bget cm.buckets_ (getBucketIdx cm key))) from rfl,
        bget_bset_ne _ _ _ _ (fun hh => hii hh.symm)] at hkv
      exact hpart i' hi' kv hkv

theorem cmInv_cmWrite {V : Type} {cm : ConcurrentMap V}
    (h : cmInv cm) (key : Int) (v : V) : cmInv (cmWrite cm key v) := by
  obtain ⟨hlen, hwf, hpart⟩ := h
  have hi : getBucketIdx cm key < cm.buckets_.length := getBucketIdx_lt hlen key
  have hlen' : (cmWrite cm key v).buckets_.length = cm.buckets_.length :=
    cmWrite_length cm key v
  refine ⟨by rw [hlen']; exact hlen, ?_, ?_⟩
  · intro b hb
    rcases mem_bset _ _ _ _ hb with hb | rfl
    · exact hwf b hb
    · exact mapWF_mapSet (cmWF_bget hwf _)
  · intro i' hi' kv hkv
    rw [hlen'] at hi'
    rw [getBucketIdx_congr hlen']
    by_cases hii : i' = getBucketIdx cm key
    · subst hii
      rw [show (cmWrite cm key v).buckets_ =
          bset cm.buckets_ (getBucketIdx cm key)
            (mapSet key v (bget cm.buckets_ (getBucketIdx cm key))) from rfl,
        bget_bset_self _ _ _ hi] at hkv
      rcases mem_mapSet hkv with rfl | hkv
      · rfl
      · exact hpart _ hi kv hkv
    · rw [show (cmWrite cm key v).buckets_ =
          bset cm.buckets_ (getBucketIdx cm key)
            (mapSet key v (bget cm.buckets_ (getBucketIdx cm key))) from rfl,
        bget_bset_ne _ _ _ _ (fun hh => hii hh.symm)] at hkv
      exact hpart i' hi' kv hkv

theorem cmInv_cmErase {V : Type} {cm : ConcurrentMap V}
    (h : cmInv cm) (key : Int) : cmInv (cmErase cm key) := by
  obtain ⟨hlen, hwf, hpart⟩ := h
  have hi : getBucketIdx cm key < cm.buckets_.length := getBucketIdx_lt hlen key
  have hlen' : (cmErase cm key).buckets_.length = cm.buckets_.length :=
    cmErase_length cm key
  refine ⟨by rw [hlen']; exact hlen, ?_, ?_⟩
  · intro b hb
    rcases mem_bset _ _ _ _ hb with hb | rfl
    · exact hwf b hb
    · exact mapWF_mapErase (cmWF_bget hwf _)
  · intro i' hi' kv hkv
    rw [hlen'] at hi'
    rw [getBucketIdx_congr hlen']
    by_cases hii : i' = getBucketIdx cm key
    · subst hii
      rw [show (cmErase cm key).buckets_ =
          bset cm.buckets_ (getBucketIdx cm key)
            (mapErase key (bget cm.buckets_ (getBucketIdx cm key))) from rfl,
        bget_bset_self _ _ _ hi] at hkv
      exact hpart _ hi kv ((mapErase_sublist key _).subset hkv)
    · rw [show (cmErase cm key).buckets_ =
          bset cm.buckets_ (getBucketIdx cm key)
            (mapErase key (bget cm.buckets_ (getBucketIdx cm key))) from rfl,
        bget_bset_ne _ _ _ _ (fun hh => hii hh.symm)] at hkv
      exact hpart i' hi' kv hkv

theorem cmInv_runOp {V : Type} [Inhabited V] {cm : ConcurrentMap V}
    (h : cmInv cm) (op : Op V) : cmInv (runOp cm op) := by
  cases op with
  | access key => exact cmInv_cmAccess h key
  | assign key v => exact cmInv_cmWrite (cmInv_cmAccess h key) key v
  | erase key => exact cmInv_cmErase h key
  | snapshot => rw [runOp, buildRun_fst]; exact h

theorem cmInv_runOps {V : Type} [Inhabited V] :
    ∀ (ops : List (Op V)) (cm : ConcurrentMap V), cmInv cm → cmInv (runOps cm ops) := by
  intro ops
  induction ops with
  | nil => intro cm h; exact h
  | cons op rest ih =>
    intro cm h
    rw [runOps, List.foldl_cons]
    exact ih (runOp cm op) (cmInv_runOp h op)

theorem cmFind_cmAccess_fst {V : Type} [Inhabited V] {cm : ConcurrentMap V}
    (h : cmInv cm) (key j : Int) :
    cmFind (cmAccess cm key).1 j =
      if j = key then some ((cmFind cm key).getD default) else cmFind cm j := by
  obtain ⟨hlen, hwf, hpart⟩ := h
  have hi : getBucketIdx cm key < cm.buckets_.length := getBucketIdx_lt hlen key
  have hlen' : ((cmAccess cm key).1).buckets_.length = cm.buckets_.length :=
    cmAccess_fst_length cm key
  rw [cmFind, getBucketIdx_congr hlen']
  rw [show ((cmAccess cm key).1).buckets_ =
      bset cm.buckets_ (getBucketIdx cm key)
        (mapInsertIfAbsent key default
          (bget cm.buckets_ (getBucketIdx cm key))) from rfl]
  by_cases hij : getBucketIdx cm j = getBucketIdx cm key
  · rw [hij, bget_bset_self _ _ _ hi]
    rw [mapFind_insertIfAbsent (cmWF_bget hwf _) j]
    rw [cmFind, cmFind, hij]
  · rw [bget_bset_ne _ _ _ _ (fun hh => hij hh.symm)]
    have hjk : ¬ j = key := fun hh => hij (hh ▸ rfl)
    rw [if_neg hjk, cmFind]

theorem cmAccess_snd {V : Type} [Inhabited V] {cm : ConcurrentMap V}
    (h : cmInv cm) (key : Int) :
    (cmAccess cm key).2 = (cmFind cm key).getD default := by
  obtain ⟨hlen, hwf, hpart⟩ := h
  rw [show (cmAccess cm key).2 =
      (mapFind (mapInsertIfAbsent key default
        (bget cm.buckets_ (getBucketIdx cm key))) key).getD default from rfl]
  rw [mapFind_insertIfAbsent (cmWF_bget hwf _) key, if_pos rfl]
  rw [cmFind]
  simp

theorem cmFind_cmWrite {V : Type} {cm : ConcurrentMap V}
    (hlen : 0 < cm.buckets_.length) (key j : Int) (v : V) :
    cmFind (cmWrite cm key v) j = if j = key then some v else cmFind cm j := by
  have hi : getBucketIdx cm key < cm.buckets_.length := getBucketIdx_lt hlen key
  have hlen' : (cmWrite cm key v).buckets_.length = cm.buckets_.length :=
    cmWrite_length cm key v
  rw [cmFind, getBucketIdx_congr hlen']
  rw [show (cmWrite cm key v).buckets_ =
      bset cm.buckets_ (getBucketIdx cm key)
        (mapSet key v (bget cm.buckets_ (getBucketIdx cm key))) from rfl]
  by_cases hij : getBucketIdx cm j = getBucketIdx cm key
  · rw [hij, bget_bset_self _ _ _ hi]
    rw [mapFind_mapSet key v _ j]
    rw [cmFind, hij]
  · rw [bget_bset_ne _ _ _ _ (fun hh => hij hh.symm)]
    have hjk : ¬ j = key := fun hh => hij (hh ▸ rfl)
    rw [if_neg hjk, cmFind]

theorem cmFind_cmErase {V : Type} {cm : ConcurrentMap V}
    (h : cmInv cm) (key j : Int) :
    cmFind (cmErase cm key) j = if j = key then none else cmFind cm j := by
  obtain ⟨hlen, hwf, hpart⟩ := h
  have hi : getBucketIdx cm key < cm.buckets_.length := getBucketIdx_lt hlen key
  have hlen' : (cmErase cm key).buckets_.length = cm.buckets_.length :=
    cmErase_length cm key
  rw [cmFind, getBucketIdx_congr hlen']
  rw [show (cmErase cm key).buckets_ =
      bset cm.buckets_ (getBucketIdx cm key)
        (mapErase key (bget cm.buckets_ (getBucketIdx cm key))) from rfl]
  by_cases hij : getBucketIdx cm j = getBucketIdx cm key
  · rw [hij, bget_bset_self _ _ _ hi]
    rw [mapFind_mapErase (cmWF_bget hwf _) j]
    rw [cmFind, hij]
  · rw [bget_bset_ne _ _ _ _ (fun hh => hij hh.symm)]
    have hjk : ¬ j = key := fun hh => hij (hh ▸ rfl)
    rw [if_neg hjk, cmFind]

theorem cmFind_runOp {V : Type} [Inhabited V] {cm : ConcurrentMap V}
    (h : cmInv cm) (op : Op V) (j : Int) :
    cmFind (runOp cm op) j = stepSpec j (cmFind cm j) op := by
  cases op with
  | access key =>
    rw [show runOp cm (Op.access key) = (cmAccess cm key).1 from rfl]
    rw [cmFind_cmAccess_fst h key j, stepSpec]
    by_cases hj : j = key
    · subst hj
      simp
    · rw [if_neg hj, if_neg (fun hh => hj hh.symm)]
  | assign key v =>
    rw [show runOp cm (Op.assign key v) = cmWrite (cmAccess cm key).1 key v from rfl]
    have h' : cmInv (cmAccess cm key).1 := cmInv_cmAccess h key
    rw [cmFind_cmWrite h'.1 key j v, stepSpec]
    by_cases hj : j = key
    · subst hj
      simp
    · rw [if_neg hj, if_neg (fun hh => hj hh.symm)]
      rw [cmFind_cmAccess_fst h key j, if_neg hj]
  | erase key =>
    rw [show runOp cm (Op.erase key) = cmErase cm key from rfl]
    rw [cmFind_cmErase h key j, stepSpec]
    by_cases hj : j = key
    · subst hj
      simp
    · rw [if_neg hj, if_neg (fun hh => hj hh.symm)]
  | snapshot =>
    rw [runOp, buildRun_fst, stepSpec]

theorem cmFind_runOps {V : Type} [Inhabited V] :
    ∀ (ops : List (Op V)) (cm : ConcurrentMap V), cmInv cm → ∀ j,
      cmFind (runOps cm ops) j = ops.foldl (stepSpec j) (cmFind cm j) := by
  intro ops
  induction ops with
  | nil => intro cm _ j; rfl
  | cons op rest ih =>
    intro cm h j
    rw [runOps, List.foldl_cons, List.foldl_cons]
    rw [show rest.foldl runOp (runOp cm op) = runOps (runOp cm op) rest from rfl]
    rw [ih (runOp cm op) (cmInv_runOp h op) j, cmFind_runOp h op j]

theorem mapFind_buildOrdinaryMap {V : Type} {cm : ConcurrentMap V}
    (h : cmInv cm) (j : Int) :
    mapFind (buildOrdinaryMap cm) j = cmFind cm j := by
  obtain ⟨hlen, hwf, hpart⟩ := h
  rw [buildMap_eq_foldl]
  rw [foldl_insertRange_find cm.buckets_ [] hwf List.Pairwise.nil]
  rw [show mapFind ([] : KVList V) j = none from rfl]
  rw [findFirst_eq_bget (getBucketIdx_lt hlen j)]
  · rfl
  · intro i hi hne
    apply mapFind_eq_none
    intro kv hkv hj
    exact hne ((hj ▸ hpart i hi kv hkv : getBucketIdx cm j = i)).symm

theorem mapWF_buildOrdinaryMap {V : Type} (cm : ConcurrentMap V) :
    mapWF (buildOrdinaryMap cm) := by
  rw [buildMap_eq_foldl]
  exact foldl_insertRange_WF _ _ List.Pairwise.nil

theorem cmIncr_eq_runOp (cm : ConcurrentMap Int) (key : Int) :
    cmIncr cm key = runOp cm (Op.assign key ((cmAccess cm key).2 + 1)) := rfl

theorem cmInv_cmIncr {cm : ConcurrentMap Int} (h : cmInv cm) (key : Int) :
    cmInv (cmIncr cm key) := by
  rw [cmIncr_eq_runOp]
  exact cmInv_runOp h _

theorem cmFind_cmIncr {cm : ConcurrentMap Int} (h : cmInv cm) (key j : Int) :
    cmFind (cmIncr cm key) j =
      if j = key then some ((cmFind cm key).getD 0 + 1) else cmFind cm j := by
  rw [show cmIncr cm key = cmWrite (cmAccess cm key).1 key ((cmAccess cm key).2 + 1)
    from rfl]
  have h' : cmInv (cmAccess cm key).1 := cmInv_cmAccess h key
  rw [cmFind_cmWrite h'.1 key j _]
  rw [cmAccess_snd h key]
  by_cases hj : j = key
  · subst hj
    rw [if_pos rfl, if_pos rfl]
    rfl
  · rw [if_neg hj, if_neg hj]
    rw [cmFind_cmAccess_fst h key j, if_neg hj]

theorem cmInv_runIncrs :
    ∀ (ks : List Int) (cm : ConcurrentMap Int), cmInv cm → cmInv (runIncrs cm ks) := by
  intro ks
  induction ks with
  | nil => intro cm h; exact h
  | cons key rest ih =>
    intro cm h
    rw [runIncrs, List.foldl_cons]
    exact ih (cmIncr cm key) (cmInv_cmIncr h key)

theorem cmFind_runIncrs :
    ∀ (ks : List Int) (cm : ConcurrentMap Int), cmInv cm → ∀ j,
      cmFind (runIncrs cm ks) j =
        if ks.count j = 0 then cmFind cm j
        else some ((cmFind cm j).getD 0 + (ks.count j : Int)) := by
  intro ks
  induction ks with
  | nil => intro cm _ j; simp [runIncrs]
  | cons key rest ih =>
    intro cm h j
    rw [runIncrs, List.foldl_cons]
    rw [show rest.foldl cmIncr (cmIncr cm key) = runIncrs (cmIncr cm key) rest from rfl]
    rw [ih (cmIncr cm key) (cmInv_cmIncr h key) j]
    rw [cmFind_cmIncr h key j]
    by_cases hj : j = key
    · subst hj
      rw [if_pos rfl]
      rw [List.count_cons_self]
      by_cases hc : rest.count j = 0
      · rw [if_pos hc, hc]
        norm_num
      · rw [if_neg hc, if_neg (by omega)]
        simp only [Option.getD_some]
        congr 1
        push_cast
        ring
    · rw [if_neg hj]
      rw [List.count_cons_of_ne hj]

/-! ### Claim theorems -/

/-- Claim C1: for every key of the integral key type and every map constructed
with partition count `n > 0`, the partition selected for the key is exactly
`unsignedWiden key % n` — the key is first wrapped into an unsigned 64-bit
representation (wrapping negative keys) and then reduced modulo the partition
count — and this index always lies in `[0, n)`. -/
theorem partitionIndex_eq_unsignedWiden_mod {V : Type} (n : Nat) (hn : 0 < n)
    (k : Int) :
    getBucketIdx (mkConcurrentMap V n) k = unsignedWiden k % n ∧
    getBucketIdx (mkConcurrentMap V n) k < n := by
  have hlen : (mkConcurrentMap V n).buckets_.length = n := by simp [mkConcurrentMap]
  constructor
  · rw [getBucketIdx, hlen]
  · rw [getBucketIdx, hlen]
    exact Nat.mod_lt _ hn

/-- Claim C1 witness: with 3 partitions, the negative key `-7` wraps to
`2^64 - 7` and lands in partition `(2^64 - 7) % 3 = 0 < 3`. -/
theorem partitionIndex_eq_unsignedWiden_mod_witness :
    0 < 3 ∧
    (getBucketIdx (mkConcurrentMap Int 3) (-7) = unsignedWiden (-7) % 3 ∧
     getBucketIdx (mkConcurrentMap Int 3) (-7) < 3) :=
  ⟨by decide, partitionIndex_eq_unsignedWiden_mod 3 (by decide) (-7)⟩

/-- Claim C2 counterexample: constructing the map with a partition count of
zero does not fail — `ConcurrentMap(0)` initializes `buckets_` as an empty
vector and returns normally, so construction succeeds at the concrete input 0. -/
theorem mkConcurrentMap_zero_returns :
    mkConcurrentMap Int 0 = { buckets_ := [] } := rfl

/-- Claim C2 (amended): constructing the map with partition count 0 succeeds
silently with a partition table of length 0; the constructor performs no
validity check and does not default to any positive partition count (any
subsequent key operation would then take a modulus by zero, which is undefined
behavior in the C++). -/
theorem mkConcurrentMap_zero_no_default :
    (mkConcurrentMap Int 0).buckets_.length = 0 := rfl

/-- Claim C3: for every key absent from the map, `operator[]` (the `Access`
handle) inserts an entry holding the value type's default value, the exposed
reference denotes that default value before any mutation, and no other key is
affected; for every key already present, it inserts nothing (the state is
unchanged) and the reference denotes the existing value. -/
theorem access_upsert_semantics {V : Type} [Inhabited V] (cm : ConcurrentMap V)
    (k : Int) (h : cmInv cm) :
    (cmFind cm k = none →
      (cmAccess cm k).2 = default ∧
      cmFind (cmAccess cm k).1 k = some default ∧
      ∀ j, j ≠ k → cmFind (cmAccess cm k).1 j = cmFind cm j) ∧
    (∀ v, cmFind cm k = some v →
      (cmAccess cm k).1 = cm ∧ (cmAccess cm k).2 = v) := by
  constructor
  · intro habs
    refine ⟨?_, ?_, ?_⟩
    · rw [cmAccess_snd h k, habs]
      rfl
    · rw [cmFind_cmAccess_fst h k k, if_pos rfl, habs]
      rfl
    · intro j hj
      rw [cmFind_cmAccess_fst h k j, if_neg hj]
  · intro v hv
    obtain ⟨hlen, hwf, hpart⟩ := h
    constructor
    · show (⟨bset cm.buckets_ (getBucketIdx cm k)
        (mapInsertIfAbsent k default
          (bget cm.buckets_ (getBucketIdx cm k)))⟩ : ConcurrentMap V) = cm
      rw [mapInsertIfAbsent_of_present (cmWF_bget hwf _) hv, bset_bget_self]
    · rw [cmAccess_snd ⟨hlen, hwf, hpart⟩ k, hv]
      rfl

/-- Claim C3 witness: the invariant holds for a fresh 2-partition map, on which
accessing the absent key 5 exposes the default value and inserts it. -/
theorem access_upsert_semantics_witness :
    cmInv (mkConcurrentMap Int 2) ∧
    (cmAccess (mkConcurrentMap Int 2) 5).2 = default ∧
    cmFind (cmAccess (mkConcurrentMap Int 2) 5).1 5 = some default := by
  refine ⟨by decide, ?_, ?_⟩
  · exact ((access_upsert_semantics (mkConcurrentMap Int 2) 5 (by decide)).1
      (by decide)).1
  · exact ((access_upsert_semantics (mkConcurrentMap Int 2) 5 (by decide)).1
      (by decide)).2.1

/-- Claim C4: after any serialized history of access (with arbitrary writes
through the returned reference), erase and snapshot operations starting from a
map with `n > 0` partitions, `BuildOrdinaryMap` returns an ordered map
(strictly sorted keys) whose binding for each key is exactly the
specification-level last state: the last value written to the key, the default
value if the key was only inserted and never written, and nothing if the key
was absent or erased. -/
theorem snapshot_completeness {V : Type} [Inhabited V] (n : Nat) (hn : 0 < n)
    (ops : List (Op V)) :
    mapWF (buildOrdinaryMap (runOps (mkConcurrentMap V n) ops)) ∧
    ∀ k, mapFind (buildOrdinaryMap (runOps (mkConcurrentMap V n) ops)) k =
      lastState ops k := by
  constructor
  · exact mapWF_buildOrdinaryMap _
  · intro k
    have hinv := cmInv_runOps ops _ (cmInv_mk hn)
    rw [mapFind_buildOrdinaryMap hinv k]
    rw [cmFind_runOps ops _ (cmInv_mk hn) k]
    rw [cmFind_mk, lastState]

/-- Claim C4 witness: a concrete history over 3 partitions — insert key 1,
assign 5 then 7 to key 2, erase key 1, take a snapshot — after which the
snapshot binds key 2 to its last-written value. -/
theorem snapshot_completeness_witness :
    0 < 3 ∧
    mapFind (buildOrdinaryMap (runOps (mkConcurrentMap Int 3)
        [Op.access 1, Op.assign 2 5, Op.erase 1, Op.assign 2 7, Op.snapshot])) 2 =
      lastState [Op.access 1, Op.assign 2 (5 : Int), Op.erase 1, Op.assign 2 7,
        Op.snapshot] 2 :=
  ⟨by decide, (snapshot_completeness 3 (by decide)
    [Op.access 1, Op.assign 2 5, Op.erase 1, Op.assign 2 7, Op.snapshot]).2 2⟩

/-- Claim C5: for every key absent from the map, `erase(key)` is a no-op — the
whole state (every partition, hence any subsequent snapshot) is unchanged; for
every key, after `erase(key)` the key is absent and every other key's binding
is untouched, i.e. erase removes exactly that key's entry. -/
theorem erase_noop_or_remove {V : Type} (cm : ConcurrentMap V) (k : Int)
    (h : cmInv cm) :
    (cmFind cm k = none → cmErase cm k = cm) ∧
    cmFind (cmErase cm k) k = none ∧
    ∀ j, j ≠ k → cmFind (cmErase cm k) j = cmFind cm j := by
  refine ⟨?_, ?_, ?_⟩
  · intro habs
    show (⟨bset cm.buckets_ (getBucketIdx cm k)
      (mapErase k (bget cm.buckets_ (getBucketIdx cm k)))⟩ : ConcurrentMap V) = cm
    rw [mapErase_of_absent habs, bset_bget_self]
  · rw [cmFind_cmErase h k k, if_pos rfl]
  · intro j hj
    rw [cmFind_cmErase h k j, if_neg hj]

/-- Claim C5 witness: erasing the never-inserted key 7 from a fresh
3-partition map returns normally and leaves the state literally unchanged. -/
theorem erase_noop_or_remove_witness :
    cmInv (mkConcurrentMap Int 3) ∧
    cmErase (mkConcurrentMap Int 3) 7 = mkConcurrentMap Int 3 ∧
    cmFind (cmErase (mkConcurrentMap Int 3) 7) 7 = none := by
  refine ⟨by decide, ?_, ?_⟩
  · exact (erase_noop_or_remove (mkConcurrentMap Int 3) 7 (by decide)).1 (by decide)
  · exact (erase_noop_or_remove (mkConcurrentMap Int 3) 7 (by decide)).2.1

/-- Claim C6: partition disjointness is an invariant preserved by every
operation: in every state reachable by a history of access, assign, erase and
snapshot operations from a map with `n > 0` partitions, partition `i` contains
only keys `k` with `unsignedWiden k % n = i`; consequently the key sets of
distinct partitions are disjoint (no key occurs in two partitions). -/
theorem partition_invariant_holds {V : Type} [Inhabited V] (n : Nat)
    (hn : 0 < n) (ops : List (Op V)) :
    (∀ i, i < n → ∀ kv ∈ bget (runOps (mkConcurrentMap V n) ops).buckets_ i,
      unsignedWiden kv.1 % n = i) ∧
    (∀ i j, i < n → j < n → i ≠ j → ∀ (k : Int) (v w : V),
      (k, v) ∈ bget (runOps (mkConcurrentMap V n) ops).buckets_ i →
      (k, w) ∈ bget (runOps (mkConcurrentMap V n) ops).buckets_ j → False) := by
  have hinv := cmInv_runOps ops _ (cmInv_mk hn)
  have hlen : (runOps (mkConcurrentMap V n) ops).buckets_.length = n := by
    rw [runOps_length]
    simp [mkConcurrentMap]
  have key : ∀ i, i < n →
      ∀ kv ∈ bget (runOps (mkConcurrentMap V n) ops).buckets_ i,
        unsignedWiden kv.1 % n = i := by
    intro i hi kv hkv
    have h1 := hinv.2.2 i (by rw [hlen]; exact hi) kv hkv
    have h2 : unsignedWiden kv.1 %
        (runOps (mkConcurrentMap V n) ops).buckets_.length = i := h1
    rwa [hlen] at h2
  refine ⟨key, ?_⟩
  intro i j hi hj hne k v w hvi hwj
  have h1 := key i hi (k, v) hvi
  have h2 := key j hj (k, w) hwj
  exact hne (h1.symm.trans h2)

/-- Claim C6 witness: over 2 partitions, after inserting key 3, the entry
`(3, default)` indeed sits in partition `unsignedWiden 3 % 2 = 1`. -/
theorem partition_invariant_holds_witness :
    0 < 2 ∧ unsignedWiden 3 % 2 = 1 :=
  ⟨by decide,
    (partition_invariant_holds (V := Int) 2 (by decide) [Op.access 3]).1 1
      (by decide) (3, default) (by decide)⟩

/-- Claim C7: `BuildOrdinaryMap` is read-only with respect to the map's state:
threading the state through its per-partition loop returns it unchanged — no
entry is created, deleted or modified in any partition by taking a snapshot. -/
theorem snapshot_is_readonly {V : Type} (cm : ConcurrentMap V) :
    (buildOrdinaryMapRun cm).1 = cm :=
  buildRun_fst cm

/-- Claim C8: increments on a key via `cm[key].ref_to_value` are serialized by
the key's partition lock, so a history interleaving any number of
increment-style mutations loses no update: each key's final value is exactly
the number of increments applied to it (and a key never incremented is
absent). In particular, for the test scenario — 3 threads each incrementing
the same 50,000 keys twice, i.e. a history in which each of those keys occurs
6 times — the snapshot binds every such key to 6. -/
theorem same_key_increments_count (n : Nat) (hn : 0 < n) (ks : List Int)
    (k : Int) :
    mapFind (buildOrdinaryMap (runIncrs (mkConcurrentMap Int n) ks)) k =
      if 0 < ks.count k then some ((ks.count k : Int)) else none := by
  have hinv0 : cmInv (mkConcurrentMap Int n) := cmInv_mk hn
  have hinv := cmInv_runIncrs ks _ hinv0
  rw [mapFind_buildOrdinaryMap hinv k]
  rw [cmFind_runIncrs ks _ hinv0 k]
  rw [cmFind_mk]
  by_cases hc : ks.count k = 0
  · rw [if_pos hc, if_neg (by omega)]
  · rw [if_neg hc, if_pos (by omega)]
    simp

/-- Claim C8 witness: a history of 4 increments over 3 partitions, 3 of them
on key 5 — the snapshot binds key 5 to 3. -/
theorem same_key_increments_count_witness :
    0 < 3 ∧
    mapFind (buildOrdinaryMap (runIncrs (mkConcurrentMap Int 3) [5, -2, 5, 5])) 5 =
      if 0 < ([5, -2, 5, 5] : List Int).count 5
      then some ((([5, -2, 5, 5] : List Int).count 5 : Int)) else none :=
  ⟨by decide, same_key_increments_count 3 (by decide) [5, -2, 5, 5] 5⟩

/-- Claim C9: the partition count is fixed at construction: for every map
constructed with partition count `n` and every history of access, assign,
erase and snapshot operations, the partition table still has exactly `n`
partitions. -/
theorem partition_count_constant {V : Type} [Inhabited V] (n : Nat)
    (ops : List (Op V)) :
    (runOps (mkConcurrentMap V n) ops).buckets_.length = n := by
  rw [runOps_length]
  simp [mkConcurrentMap]

/-- Claim C10: under the precondition that the partition count is positive,
the partition lookup used by access, erase and snapshot is total and
in-bounds: for every key, the computed index is strictly below the partition
count, so indexing the partition table always yields a partition (and the
modulus is never taken by zero). -/
theorem getBucket_index_inbounds {V : Type} (cm : ConcurrentMap V) (k : Int)
    (h : 0 < cm.buckets_.length) :
    getBucketIdx cm k < cm.buckets_.length ∧
    cm.buckets_[getBucketIdx cm k]? ≠ none := by
  have hlt := getBucketIdx_lt h k
  refine ⟨hlt, ?_⟩
  rw [List.getElem?_eq_getElem hlt]
  simp

/-- Claim C10 witness: a fresh 3-partition map, key `-9`: the index is
in-bounds and the vector access yields a partition. -/
theorem getBucket_index_inbounds_witness :
    0 < (mkConcurrentMap Int 3).buckets_.length ∧
    (getBucketIdx (mkConcurrentMap Int 3) (-9) <
        (mkConcurrentMap Int 3).buckets_.length ∧
      (mkConcurrentMap Int 3).buckets_[getBucketIdx (mkConcurrentMap Int 3) (-9)]? ≠
        none) :=
  ⟨by decide, getBucket_index_inbounds (mkConcurrentMap Int 3) (-9) (by decide)⟩

end ConcurrentMapModel
